import Mathlib

/-
Shallow embedding of src/puzzle_gen.cpp (domino puzzle generator).

The embedding models the constraint-satisfaction backtracking solver:
  * Domino, Cell, Region, PlacedDomino, SolverState mirror the C++ structs.
  * std::set<Cell> and std::map<Cell,int> are modelled as sorted lists
    (sorted by the std::pair lexicographic order), with insert operations
    that mirror ordered-container insertion; std::set<Domino> is modelled
    by a list with insert-if-absent (only membership is ever queried).
  * Solver::backtrack is modelled as a fuel-indexed recursive function; the
    three nested loops (dominoes / adjacent cells / orientations) become
    list recursions parameterised by the recursive call.  solve supplies
    fuel |all_cells| + 1, which is never exhausted because every recursive
    step fills at least one additional cell of all_cells.
  * The solution cap max_solutions is a parameter (cap = some k); cap = none
    is the uncapped reference run used to express the "true" deduplicated
    solution count.
  * C++ int is modelled as Int (no overflow occurs in the source's ranges);
    counts are Nat.
-/

namespace PuzzleGen

/-- Grid cell position, mirroring `using Cell = pair<int,int>`. -/
abbrev Cell := Int × Int

/-- The std::pair lexicographic strict order used by std::set<Cell> and
std::map<Cell,int>. -/
def cellLt (a b : Cell) : Bool :=
  decide (a.1 < b.1 ∨ (a.1 = b.1 ∧ a.2 < b.2))

/-- Row-major (grid scan order) reflexive comparison on cells. -/
def cellLe (a b : Cell) : Prop :=
  a = b ∨ cellLt a b = true

/-- Domino: two pip values, mirroring `struct Domino`. -/
structure Domino where
  low : Int
  high : Int
deriving DecidableEq, Repr

/-- `Domino::pips`. -/
def Domino.pips (d : Domino) : Int := d.low + d.high

/-- `enum class ConstraintType`. -/
inductive ConstraintType where
  | SUM
  | EQUAL
  | LESS
  | GREATER
deriving DecidableEq, Repr

/-- `struct Region`. -/
structure Region where
  id : Int
  cells : List Cell
  type : ConstraintType
  target_value : Int
  linked_region_id : Int
deriving DecidableEq, Repr

/-- `struct PlacedDomino`. -/
structure PlacedDomino where
  domino : Domino
  row : Int
  col : Int
  horizontal : Bool
deriving DecidableEq, Repr

/-- `PlacedDomino::cell1`. -/
def PlacedDomino.cell1 (p : PlacedDomino) : Cell := (p.row, p.col)

/-- `PlacedDomino::cell2`. -/
def PlacedDomino.cell2 (p : PlacedDomino) : Cell :=
  if p.horizontal then (p.row, p.col + 1) else (p.row + 1, p.col)

/-- std::map<Cell,int> modelled as a list of key-value pairs kept sorted
by `cellLt` on keys. -/
abbrev ValMap := List (Cell × Int)

/-- map::find (exact key lookup). -/
def mapFind (m : ValMap) (c : Cell) : Option Int :=
  match m with
  | [] => none
  | (k, v) :: rest => if k = c then some v else mapFind rest c

/-- map::operator[] followed by assignment: ordered insert-or-assign. -/
def mapInsert (m : ValMap) (c : Cell) (v : Int) : ValMap :=
  match m with
  | [] => [(c, v)]
  | (k, w) :: rest =>
    if cellLt c k then (c, v) :: (k, w) :: rest
    else if c = k then (c, v) :: rest
    else (k, w) :: mapInsert rest c v

/-- std::set<Cell>::insert: ordered insert-if-absent. -/
def setInsert (s : List Cell) (c : Cell) : List Cell :=
  match s with
  | [] => [c]
  | k :: rest =>
    if cellLt c k then c :: k :: rest
    else if c = k then k :: rest
    else k :: setInsert rest c

/-- std::set<Domino>::insert modelled by membership (only `count` is ever
called on used_dominoes, so the order of the list is irrelevant). -/
def domInsert (s : List Domino) (d : Domino) : List Domino :=
  if d ∈ s then s else s ++ [d]

/-- `struct SolverState`. -/
structure SolverState where
  placed : List PlacedDomino
  used_dominoes : List Domino
  filled_cells : List Cell
  cell_values : ValMap
deriving DecidableEq, Repr

/-- The empty root state constructed by `Solver::solve`. -/
def emptyState : SolverState :=
  { placed := [], used_dominoes := [], filled_cells := [], cell_values := [] }

/-- The read-only configuration held by class `Solver` (dominoes, regions,
grid dimensions).  `rows`/`cols` are stored but never consulted by the
solver, exactly as in the source. -/
structure Config where
  dominoes : List Domino
  regions : List Region
  rows : Int
  cols : Int
deriving Repr

/-- `cell_to_region`, built by the Solver constructor: the loop over
`regions` writes `cell_to_region[cell] = reg.id` for every member cell, so
the last region (in list order) containing a cell wins. -/
def cellToRegion (cfg : Config) (c : Cell) : Option Int :=
  cfg.regions.foldl (fun acc r => if c ∈ r.cells then some r.id else acc) none

/-- `region_by_id`, built by the Solver constructor: maps an id to the last
region in the list carrying that id. -/
def regionById (cfg : Config) (id : Int) : Option Region :=
  cfg.regions.foldl (fun acc r => if r.id = id then some r else acc) none

/-- `all_cells`: every cell mentioned by some region, as a sorted set.
The declared grid dimensions play no part. -/
def allCells (cfg : Config) : List Cell :=
  cfg.regions.foldl (fun s r => r.cells.foldl setInsert s) []

/-- `Solver::get_region_sum`: sum of the values of the region's member
cells that are present in the value map.  (In C++, a `region_id` absent
from `region_by_id` dereferences a null pointer; that branch is modelled
as 0 and is never reached for ids that occur in the region list.) -/
def get_region_sum (cfg : Config) (rid : Int) (cell_values : ValMap) : Int :=
  match regionById cfg rid with
  | none => 0
  | some r =>
    r.cells.foldl
      (fun total c =>
        match mapFind cell_values c with
        | some v => total + v
        | none => total) 0

/-- `Solver::get_region_values`. -/
def get_region_values (cfg : Config) (rid : Int) (cell_values : ValMap) : List Int :=
  match regionById cfg rid with
  | none => []
  | some r =>
    r.cells.foldr
      (fun c vals =>
        match mapFind cell_values c with
        | some v => v :: vals
        | none => vals) []

/-- `Solver::is_region_complete`.  (A missing region id is C++ undefined
behaviour; modelled as `true`, never reached for ids from the region
list.) -/
def is_region_complete (cfg : Config) (rid : Int) (filled : List Cell) : Bool :=
  match regionById cfg rid with
  | none => true
  | some r => r.cells.all (fun c => decide (c ∈ filled))

/-- `Solver::check_constraint`. -/
def check_constraint (cfg : Config) (region : Region) (cell_values : ValMap)
    (filled : List Cell) (partial_ok : Bool) : Bool :=
  let complete := is_region_complete cfg region.id filled
  match region.type with
  | ConstraintType.SUM =>
    let sum := get_region_sum cfg region.id cell_values
    if complete then decide (sum = region.target_value)
    else partial_ok && decide (sum ≤ region.target_value)
  | ConstraintType.EQUAL =>
    match get_region_values cfg region.id cell_values with
    | [] => true
    | first :: rest => (first :: rest).all (fun v => decide (v = first))
  | ConstraintType.LESS =>
    if !complete then partial_ok
    else if !is_region_complete cfg region.linked_region_id filled then partial_ok
    else decide (get_region_sum cfg region.id cell_values <
                 get_region_sum cfg region.linked_region_id cell_values)
  | ConstraintType.GREATER =>
    if !complete then partial_ok
    else if !is_region_complete cfg region.linked_region_id filled then partial_ok
    else decide (get_region_sum cfg region.id cell_values >
                 get_region_sum cfg region.linked_region_id cell_values)

/-- `Solver::get_adjacent`: the four neighbours, filtered to `all_cells`,
in the fixed candidate order up, down, left, right. -/
def get_adjacent (cfg : Config) (c : Cell) : List Cell :=
  [(c.1 - 1, c.2), (c.1 + 1, c.2), (c.1, c.2 - 1), (c.1, c.2 + 1)].filter
    (fun n => decide (n ∈ allCells cfg))

/-- The body of the inner count in `Solver::choose_cell`: how many member
cells of the chosen cell's owning region are currently unfilled. -/
def regionUnfilledCount (cfg : Config) (filled : List Cell) (c : Cell) : Nat :=
  match cellToRegion cfg c with
  | none => 0
  | some rid =>
    match regionById cfg rid with
    | none => 0
    | some r => (r.cells.filter (fun x => decide (x ∉ filled))).length

/-- One step of the `choose_cell` scan over `all_cells`.  The running
minimum `min_unfilled` (initialised to INT_MAX in C++) is modelled as an
`Option Nat`, `none` standing for "no unfilled cell seen yet". -/
def chooseStep (cfg : Config) (filled : List Cell) (b : Cell × Option Nat)
    (c : Cell) : Cell × Option Nat :=
  if c ∈ filled then b
  else
    let unfilled := regionUnfilledCount cfg filled c
    match b.2 with
    | none => (c, some unfilled)
    | some m => if unfilled < m then (c, some unfilled) else b

/-- `Solver::choose_cell`: scan `all_cells` in sorted (row-major) order,
returning the first unfilled cell whose owning region has the fewest
unfilled member cells, or the sentinel (-1,-1) when every cell is
filled. -/
def choose_cell (cfg : Config) (s : SolverState) : Cell :=
  ((allCells cfg).foldl (chooseStep cfg s.filled_cells) (((-1 : Int), (-1 : Int)), none)).1

/-- The (up to two) orientations tried for a domino. -/
def orientations (d : Domino) : List (Int × Int) :=
  if d.low = d.high then [(d.low, d.high)] else [(d.low, d.high), (d.high, d.low)]

/-- The placement record built in the backtracking step. -/
def mkPlacement (d : Domino) (cell adj : Cell) : PlacedDomino :=
  { domino := d
    row := min cell.1 adj.1
    col := min cell.2 adj.2
    horizontal := decide (cell.1 = adj.1) }

/-- The successor state built in `Solver::backtrack` when domino `d` is
placed with pip `pc` on `cell` and pip `pa` on `adj`. -/
def nextState (s : SolverState) (cell : Cell) (d : Domino) (adj : Cell)
    (pc pa : Int) : SolverState :=
  { placed := s.placed ++ [mkPlacement d cell adj]
    used_dominoes := domInsert s.used_dominoes d
    filled_cells := setInsert (setInsert s.filled_cells cell) adj
    cell_values := mapInsert (mapInsert s.cell_values cell pc) adj pa }

/-- The partial-mode constraint check over the (at most two) regions
affected by the two newly filled cells, mirroring the `set<int> affected`
loop.  (For cells drawn from `all_cells` both lookups succeed; a missing
region id would be C++ undefined behaviour and is modelled as `true`.) -/
def validExtension (cfg : Config) (cell adj : Cell) (new_values : ValMap)
    (new_filled : List Cell) : Bool :=
  match cellToRegion cfg cell, cellToRegion cfg adj with
  | some r1, some r2 =>
    (if r1 = r2 then [r1] else [r1, r2]).all fun rid =>
      match regionById cfg rid with
      | some r => check_constraint cfg r new_values new_filled true
      | none => true
  | _, _ => true

/-- Accumulator threaded through the search: the `solutions` vector and
the `seen_signatures` set of the Solver. -/
structure SearchAcc where
  solutions : List SolverState
  seen : List ValMap
deriving DecidableEq, Repr

/-- The empty accumulator set up by `Solver::solve`. -/
def emptyAcc : SearchAcc := { solutions := [], seen := [] }

/-- `solutions.size() >= (size_t)max_solutions`; `cap = none` is the
uncapped reference run (no such check). -/
def stopAt (cap : Option Nat) (acc : SearchAcc) : Bool :=
  match cap with
  | some k => decide (k ≤ acc.solutions.length)
  | none => false

/-- Final full-strictness verification of all regions performed when the
grid is completely filled. -/
def completeCheck (cfg : Config) (s : SolverState) : Bool :=
  cfg.regions.all (fun r => check_constraint cfg r s.cell_values s.filled_cells false)

/-- Signature deduplication and recording of a verified complete state:
`seen_signatures.insert(state.cell_values).second` guarding
`solutions.push_back(state)`. -/
def acceptState (s : SolverState) (acc : SearchAcc) : SearchAcc :=
  if s.cell_values ∈ acc.seen then acc
  else { solutions := acc.solutions ++ [s], seen := acc.seen ++ [s.cell_values] }

/-- The orientation loop of `Solver::backtrack`.  `rec` is the recursive
call into `backtrack` at the next depth. -/
def tryOrients (cfg : Config) (cap : Option Nat) (rec : SolverState → SearchAcc → SearchAcc)
    (s : SolverState) (cell : Cell) (d : Domino) (adj : Cell) :
    List (Int × Int) → SearchAcc → SearchAcc
  | [], acc => acc
  | (pc, pa) :: rest, acc =>
    if validExtension cfg cell adj
        (nextState s cell d adj pc pa).cell_values
        (nextState s cell d adj pc pa).filled_cells then
      if stopAt cap (rec (nextState s cell d adj pc pa) acc) then
        rec (nextState s cell d adj pc pa) acc
      else
        tryOrients cfg cap rec s cell d adj rest (rec (nextState s cell d adj pc pa) acc)
    else tryOrients cfg cap rec s cell d adj rest acc

/-- The adjacent-cell loop of `Solver::backtrack`. -/
def tryAdjs (cfg : Config) (cap : Option Nat) (rec : SolverState → SearchAcc → SearchAcc)
    (s : SolverState) (cell : Cell) (d : Domino) :
    List Cell → SearchAcc → SearchAcc
  | [], acc => acc
  | adj :: rest, acc =>
    if adj ∈ s.filled_cells then tryAdjs cfg cap rec s cell d rest acc
    else if (cellToRegion cfg cell).isNone || (cellToRegion cfg adj).isNone then
      tryAdjs cfg cap rec s cell d rest acc
    else
      if stopAt cap (tryOrients cfg cap rec s cell d adj (orientations d) acc) then
        tryOrients cfg cap rec s cell d adj (orientations d) acc
      else
        tryAdjs cfg cap rec s cell d rest
          (tryOrients cfg cap rec s cell d adj (orientations d) acc)

/-- The domino loop of `Solver::backtrack`. -/
def tryDominoes (cfg : Config) (cap : Option Nat) (rec : SolverState → SearchAcc → SearchAcc)
    (s : SolverState) (cell : Cell) :
    List Domino → SearchAcc → SearchAcc
  | [], acc => acc
  | d :: rest, acc =>
    if d ∈ s.used_dominoes then tryDominoes cfg cap rec s cell rest acc
    else
      if stopAt cap (tryAdjs cfg cap rec s cell d (get_adjacent cfg cell) acc) then
        tryAdjs cfg cap rec s cell d (get_adjacent cfg cell) acc
      else
        tryDominoes cfg cap rec s cell rest
          (tryAdjs cfg cap rec s cell d (get_adjacent cfg cell) acc)

/-- `Solver::backtrack`, fuel-indexed.  Each recursive call strictly grows
the filled-cell set (by two cells), so solve's fuel of |all_cells| + 1 is
never exhausted. -/
def backtrack (cfg : Config) (cap : Option Nat) : Nat → SolverState → SearchAcc → SearchAcc
  | 0, _, acc => acc
  | fuel + 1, s, acc =>
    if stopAt cap acc then acc
    else if s.filled_cells.length = (allCells cfg).length then
      if completeCheck cfg s then acceptState s acc else acc
    else
      if (choose_cell cfg s).1 < 0 then acc
      else
        tryDominoes cfg cap (backtrack cfg cap fuel) s (choose_cell cfg s) cfg.dominoes acc

/-- `Solver::solve` (returning the final solutions vector and signature
set rather than just the count). -/
def solveAcc (cfg : Config) (cap : Option Nat) : SearchAcc :=
  backtrack cfg cap ((allCells cfg).length + 1) emptyState emptyAcc

/-- The value `Solver::solve` returns for a solver built with
`max_solutions = k`. -/
def solutionCount (cfg : Config) (k : Nat) : Nat :=
  (solveAcc cfg (some k)).solutions.length

/-- The number of distinct (signature-deduplicated) solutions the same
search finds with the cap removed: the "true solution count" of the
specification. -/
def distinctSolutionCount (cfg : Config) : Nat :=
  (solveAcc cfg none).solutions.length

/-- `test_puzzle`: run the solver with cap 3; on a unique solution and a
non-null output slot, write the placement list into the slot.  The C++
out-pointer is modelled as an optional in/out slot value. -/
def test_puzzle (dominoes : List Domino) (rows cols : Int) (regions : List Region)
    (solution_out : Option (List PlacedDomino)) : Nat × Option (List PlacedDomino) :=
  let cfg : Config := { dominoes := dominoes, regions := regions, rows := rows, cols := cols }
  let acc := solveAcc cfg (some 3)
  let count := acc.solutions.length
  if count = 1 then
    match solution_out with
    | some _ => (count, some ((acc.solutions.headD emptyState).placed))
    | none => (count, none)
  else (count, solution_out)

/-- `exclude_dominoes`: keep the pool tiles that match no excluded tile,
in pool order. -/
def exclude_dominoes (pool exclude : List Domino) : List Domino :=
  match pool with
  | [] => []
  | d :: rest =>
    if exclude.any (fun e => decide (d = e)) then exclude_dominoes rest exclude
    else d :: exclude_dominoes rest exclude

/-! ### Specification-side derived quantities -/

/-- The sum of a region's member cell values under a value map (absent
cells contribute 0). -/
def memberSum (r : Region) (vals : ValMap) : Int :=
  (r.cells.map (fun c => (mapFind vals c).getD 0)).sum

/-- The partial sum of a region's currently filled member cells. -/
def filledMemberSum (r : Region) (vals : ValMap) (filled : List Cell) : Int :=
  ((r.cells.filter (fun c => decide (c ∈ filled))).map
    (fun c => (mapFind vals c).getD 0)).sum

/-! ### Order lemmas for the cell comparison -/

theorem cellLt_iff {a b : Cell} :
    cellLt a b = true ↔ (a.1 < b.1 ∨ (a.1 = b.1 ∧ a.2 < b.2)) := by
  simp [cellLt]

theorem cellLt_trans {a b c : Cell} (h1 : cellLt a b = true) (h2 : cellLt b c = true) :
    cellLt a c = true := by
  rw [cellLt_iff] at h1 h2 ⊢
  omega

theorem cellLt_irrefl (a : Cell) : cellLt a a = false := by
  rw [Bool.eq_false_iff]
  intro h
  rw [cellLt_iff] at h
  omega

theorem cellLt_of_ne_of_not_lt {a b : Cell} (hne : a ≠ b) (h : cellLt a b = false) :
    cellLt b a = true := by
  rw [cellLt_iff]
  have h1 : ¬ (a.1 < b.1 ∨ (a.1 = b.1 ∧ a.2 < b.2)) := by
    rw [← cellLt_iff, h]
    exact Bool.false_ne_true
  have h2 : a.1 ≠ b.1 ∨ a.2 ≠ b.2 := by
    by_contra hc
    push_neg at hc
    exact hne (Prod.ext_iff.mpr hc)
  omega

/-! ### Lemmas about the ordered-container operations -/

/-- A list is a valid std::set<Cell> snapshot when strictly sorted. -/
abbrev CellSorted (l : List Cell) : Prop :=
  l.Pairwise (fun a b => cellLt a b = true)

theorem mem_setInsert {s : List Cell} {c x : Cell} :
    x ∈ setInsert s c ↔ x = c ∨ x ∈ s := by
  induction s with
  | nil => simp [setInsert]
  | cons k rest ih =>
    simp only [setInsert]
    by_cases h1 : cellLt c k = true
    · rw [if_pos h1]
      exact List.mem_cons
    · rw [if_neg h1]
      by_cases h2 : c = k
      · subst h2
        rw [if_pos rfl]
        constructor
        · exact fun hx => Or.inr hx
        · rintro (rfl | hx)
          · exact List.mem_cons_self _ _
          · exact hx
      · rw [if_neg h2, List.mem_cons, ih, List.mem_cons]
        tauto

theorem setInsert_sorted {s : List Cell} {c : Cell} (hs : CellSorted s) :
    CellSorted (setInsert s c) := by
  induction s with
  | nil =>
    simp only [setInsert]
    exact List.pairwise_singleton _ _
  | cons k rest ih =>
    obtain ⟨hk, hrest⟩ := List.pairwise_cons.mp hs
    simp only [setInsert]
    by_cases h1 : cellLt c k = true
    · rw [if_pos h1]
      refine List.pairwise_cons.mpr ⟨?_, ?_⟩
      · intro b hb
        rcases List.mem_cons.mp hb with rfl | hb
        · exact h1
        · exact cellLt_trans h1 (hk b hb)
      · exact List.pairwise_cons.mpr ⟨hk, hrest⟩
    · rw [if_neg h1]
      by_cases h2 : c = k
      · rw [if_pos h2]
        exact List.pairwise_cons.mpr ⟨hk, hrest⟩
      · rw [if_neg h2]
        have h1' : cellLt c k = false := Bool.eq_false_iff.mpr h1
        refine List.pairwise_cons.mpr ⟨?_, ih hrest⟩
        intro b hb
        rcases mem_setInsert.mp hb with rfl | hb
        · exact cellLt_of_ne_of_not_lt h2 h1'
        · exact hk b hb

theorem CellSorted.nodup {l : List Cell} (h : CellSorted l) : l.Nodup := by
  induction l with
  | nil => simp
  | cons k rest ih =>
    obtain ⟨hk, hrest⟩ := List.pairwise_cons.mp h
    rw [List.nodup_cons]
    refine ⟨fun hmem => ?_, ih hrest⟩
    have := hk k hmem
    rw [cellLt_irrefl] at this
    exact Bool.false_ne_true this

theorem mapInsert_keys (m : ValMap) (c : Cell) (v : Int) :
    (mapInsert m c v).map Prod.fst = setInsert (m.map Prod.fst) c := by
  induction m with
  | nil => simp [mapInsert, setInsert]
  | cons kv rest ih =>
    obtain ⟨k, w⟩ := kv
    by_cases h1 : cellLt c k = true
    · simp [mapInsert, setInsert, h1]
    · by_cases h2 : c = k
      · subst h2
        simp [mapInsert, setInsert, h1]
      · have h1' : cellLt c k = false := by simpa using h1
        simp [mapInsert, setInsert, h1', h2, ih]

/-! ### Characterisation of `allCells` (no dependence on grid dimensions) -/

theorem mem_foldl_setInsert (cells : List Cell) (s : List Cell) (x : Cell) :
    x ∈ cells.foldl setInsert s ↔ x ∈ s ∨ x ∈ cells := by
  induction cells generalizing s with
  | nil => simp
  | cons c rest ih =>
    rw [List.foldl_cons, ih, mem_setInsert]
    simp [List.mem_cons]
    tauto

theorem foldl_setInsert_sorted (cells : List Cell) (s : List Cell) (hs : CellSorted s) :
    CellSorted (cells.foldl setInsert s) := by
  induction cells generalizing s with
  | nil => exact hs
  | cons c rest ih => exact ih _ (setInsert_sorted hs)

theorem mem_allCells_iff (cfg : Config) (x : Cell) :
    x ∈ allCells cfg ↔ ∃ r ∈ cfg.regions, x ∈ r.cells := by
  unfold allCells
  generalize cfg.regions = rs
  induction rs using List.reverseRecOn with
  | nil => simp
  | append_singleton rs r ih =>
    rw [List.foldl_append, List.foldl_cons, List.foldl_nil, mem_foldl_setInsert, ih]
    simp only [List.mem_append, List.mem_singleton]
    constructor
    · rintro (⟨r1, hr1, hx⟩ | hx)
      · exact ⟨r1, Or.inl hr1, hx⟩
      · exact ⟨r, Or.inr rfl, hx⟩
    · rintro ⟨r1, hr1 | rfl, hx⟩
      · exact Or.inl ⟨r1, hr1, hx⟩
      · exact Or.inr hx

theorem allCells_sorted (cfg : Config) : CellSorted (allCells cfg) := by
  unfold allCells
  generalize cfg.regions = rs
  induction rs using List.reverseRecOn with
  | nil => simp [CellSorted]
  | append_singleton rs r ih =>
    rw [List.foldl_append, List.foldl_cons, List.foldl_nil]
    exact foldl_setInsert_sorted _ _ ih

/-! ### Lemmas about region sums and completeness -/

theorem foldl_match_sum (vals : ValMap) (l : List Cell) (a : Int) :
    l.foldl
      (fun total c =>
        match mapFind vals c with
        | some v => total + v
        | none => total) a
      = a + (l.map (fun c => (mapFind vals c).getD 0)).sum := by
  induction l generalizing a with
  | nil => simp
  | cons c rest ih =>
    rw [List.foldl_cons, ih, List.map_cons, List.sum_cons]
    cases h : mapFind vals c
    · simp [h]
    · simp [h]
      ring

theorem get_region_sum_eq (cfg : Config) (rid : Int) (r : Region) (vals : ValMap)
    (hr : regionById cfg rid = some r) :
    get_region_sum cfg rid vals = memberSum r vals := by
  unfold get_region_sum memberSum
  rw [hr]
  simp only [foldl_match_sum, zero_add]

theorem sum_map_filter_of_zero (l : List Cell) (p : Cell → Bool) (f : Cell → Int)
    (h : ∀ c ∈ l, p c = false → f c = 0) :
    (l.map f).sum = ((l.filter p).map f).sum := by
  induction l with
  | nil => rfl
  | cons c rest ih =>
    rw [List.map_cons, List.sum_cons, List.filter_cons]
    have ih' := ih (fun c hc => h c (List.mem_cons_of_mem _ hc))
    by_cases hc : p c = true
    · rw [if_pos hc, List.map_cons, List.sum_cons, ih']
    · have hz := h c (List.mem_cons_self _ _) (Bool.eq_false_iff.mpr hc)
      rw [if_neg hc, ih', hz, zero_add]

theorem memberSum_eq_filledMemberSum (r : Region) (vals : ValMap) (filled : List Cell)
    (h : ∀ c ∈ r.cells, c ∉ filled → mapFind vals c = none) :
    memberSum r vals = filledMemberSum r vals filled := by
  unfold memberSum filledMemberSum
  refine sum_map_filter_of_zero _ _ _ (fun c hc hp => ?_)
  have hnf : c ∉ filled := by simpa using hp
  rw [h c hc hnf]
  rfl

theorem is_region_complete_iff (cfg : Config) (rid : Int) (r : Region) (filled : List Cell)
    (hr : regionById cfg rid = some r) :
    is_region_complete cfg rid filled = true ↔ ∀ c ∈ r.cells, c ∈ filled := by
  unfold is_region_complete
  rw [hr]
  simp

/-! ### Claim C2: the SUM constraint check -/

/-- Claim C2: for a SUM region (under the state coherence that a member
cell is filled exactly when it has a value): if all member cells are
filled, `check_constraint` returns true iff the sum of the member cell
values equals the target exactly; if some member cell is unfilled, it
returns true iff `partial_ok` is true and the partial sum of the filled
member cells does not exceed the target. -/
theorem check_constraint_sum_spec (cfg : Config) (region : Region) (vals : ValMap)
    (filled : List Cell) (partial_ok : Bool)
    (hty : region.type = ConstraintType.SUM)
    (hreg : regionById cfg region.id = some region)
    (hcoh : ∀ c ∈ region.cells, c ∈ filled ↔ (mapFind vals c).isSome = true) :
    ((∀ c ∈ region.cells, c ∈ filled) →
      (check_constraint cfg region vals filled partial_ok = true ↔
        memberSum region vals = region.target_value)) ∧
    ((∃ c ∈ region.cells, c ∉ filled) →
      (check_constraint cfg region vals filled partial_ok = true ↔
        (partial_ok = true ∧ filledMemberSum region vals filled ≤ region.target_value))) := by
  have hsum : get_region_sum cfg region.id vals = memberSum region vals :=
    get_region_sum_eq cfg region.id region vals hreg
  have hcomp := is_region_complete_iff cfg region.id region filled hreg
  constructor
  · intro hall
    have hc : is_region_complete cfg region.id filled = true := hcomp.mpr hall
    simp [check_constraint, hty, hc, hsum]
  · intro hex
    have hc : is_region_complete cfg region.id filled = false := by
      rw [Bool.eq_false_iff]
      intro h
      obtain ⟨c, hcm, hcf⟩ := hex
      exact hcf (hcomp.mp h c hcm)
    have hpart : memberSum region vals = filledMemberSum region vals filled := by
      refine memberSum_eq_filledMemberSum region vals filled (fun c hcm hcf => ?_)
      have := (hcoh c hcm).not.mp hcf
      simpa [Option.not_isSome_iff_eq_none] using this
    simp [check_constraint, hty, hc, hsum, hpart, Bool.and_eq_true]

/-- Witness data for claim C2: a 1 x 2 SUM region with target 3. -/
def regW2 : Region := ⟨0, [(0, 0), (0, 1)], ConstraintType.SUM, 3, -1⟩

/-- Witness configuration for claim C2. -/
def cfgW2 : Config := { dominoes := [⟨1, 2⟩], regions := [regW2], rows := 1, cols := 2 }

/-- Witness value map for claim C2. -/
def valsW2 : ValMap := [((0, 0), 1), ((0, 1), 2)]

/-- Witness for `check_constraint_sum_spec` at a concrete complete
region. -/
theorem check_constraint_sum_spec_witness :
    regW2.type = ConstraintType.SUM ∧
    regionById cfgW2 regW2.id = some regW2 ∧
    (∀ c ∈ regW2.cells, c ∈ [((0 : Int), (0 : Int)), ((0 : Int), (1 : Int))] ↔
      (mapFind valsW2 c).isSome = true) ∧
    ((∀ c ∈ regW2.cells, c ∈ [((0 : Int), (0 : Int)), ((0 : Int), (1 : Int))]) →
      (check_constraint cfgW2 regW2 valsW2 [((0 : Int), (0 : Int)), ((0 : Int), (1 : Int))] false = true ↔
        memberSum regW2 valsW2 = regW2.target_value)) :=
  ⟨rfl, by decide, by decide,
    (check_constraint_sum_spec cfgW2 regW2 valsW2 _ false rfl (by decide) (by decide)).1⟩

/-! ### Claim C3: the LESS / GREATER constraint check -/

/-- Claim C3: for a LESS or GREATER region with linked region `regB`:
while the region or its linked region has an unfilled member cell, the
check returns `partial_ok` (so it never fails while partial evaluation is
allowed and always fails otherwise); once both are fully filled it
returns the strict integer comparison of the region's sum against the
linked region's sum, for any `partial_ok`. -/
theorem check_constraint_order_spec (cfg : Config) (regA regB : Region) (vals : ValMap)
    (filled : List Cell)
    (hty : regA.type = ConstraintType.LESS ∨ regA.type = ConstraintType.GREATER)
    (hA : regionById cfg regA.id = some regA)
    (hB : regionById cfg regA.linked_region_id = some regB) :
    ((∃ c, (c ∈ regA.cells ∨ c ∈ regB.cells) ∧ c ∉ filled) →
      ∀ partial_ok, check_constraint cfg regA vals filled partial_ok = partial_ok) ∧
    ((∀ c, (c ∈ regA.cells ∨ c ∈ regB.cells) → c ∈ filled) →
      ∀ partial_ok, check_constraint cfg regA vals filled partial_ok =
        (if regA.type = ConstraintType.LESS
         then decide (memberSum regA vals < memberSum regB vals)
         else decide (memberSum regA vals > memberSum regB vals))) := by
  have hsumA : get_region_sum cfg regA.id vals = memberSum regA vals :=
    get_region_sum_eq cfg regA.id regA vals hA
  have hsumB : get_region_sum cfg regA.linked_region_id vals = memberSum regB vals :=
    get_region_sum_eq cfg regA.linked_region_id regB vals hB
  have hcompA := is_region_complete_iff cfg regA.id regA filled hA
  have hcompB := is_region_complete_iff cfg regA.linked_region_id regB filled hB
  constructor
  · rintro ⟨c, hcm | hcm, hcf⟩ partial_ok
    · have hcA : is_region_complete cfg regA.id filled = false := by
        rw [Bool.eq_false_iff]
        intro h
        exact hcf (hcompA.mp h c hcm)
      rcases hty with h | h
      · simp [check_constraint, h, hcA]
      · simp [check_constraint, h, hcA]
    · cases hcA : is_region_complete cfg regA.id filled
      · rcases hty with h | h
        · simp [check_constraint, h, hcA]
        · simp [check_constraint, h, hcA]
      · have hcB : is_region_complete cfg regA.linked_region_id filled = false := by
          rw [Bool.eq_false_iff]
          intro h
          exact hcf (hcompB.mp h c hcm)
        rcases hty with h | h
        · simp [check_constraint, h, hcA, hcB]
        · simp [check_constraint, h, hcA, hcB]
  · intro hall partial_ok
    have hcA : is_region_complete cfg regA.id filled = true :=
      hcompA.mpr (fun c hc => hall c (Or.inl hc))
    have hcB : is_region_complete cfg regA.linked_region_id filled = true :=
      hcompB.mpr (fun c hc => hall c (Or.inr hc))
    rcases hty with h | h
    · simp [check_constraint, h, hcA, hcB, hsumA, hsumB]
    · simp [check_constraint, h, hcA, hcB, hsumA, hsumB]

/-- Witness regions for claim C3: a LESS region (single cell valued 1)
linked to a region summing to 2. -/
def regW3A : Region := ⟨0, [(0, 0)], ConstraintType.LESS, -1, 1⟩

/-- The linked region for the claim C3 witness. -/
def regW3B : Region := ⟨1, [(0, 1)], ConstraintType.SUM, 2, -1⟩

/-- Witness configuration for claim C3. -/
def cfgW3 : Config := { dominoes := [], regions := [regW3A, regW3B], rows := 1, cols := 2 }

/-- Witness value map for claim C3. -/
def valsW3 : ValMap := [((0, 0), 1), ((0, 1), 2)]

/-- Witness for `check_constraint_order_spec` at a concrete pair of
complete regions. -/
theorem check_constraint_order_spec_witness :
    (regW3A.type = ConstraintType.LESS ∨ regW3A.type = ConstraintType.GREATER) ∧
    regionById cfgW3 regW3A.id = some regW3A ∧
    regionById cfgW3 regW3A.linked_region_id = some regW3B ∧
    ((∀ c, (c ∈ regW3A.cells ∨ c ∈ regW3B.cells) →
        c ∈ [((0 : Int), (0 : Int)), ((0 : Int), (1 : Int))]) →
      ∀ partial_ok,
        check_constraint cfgW3 regW3A valsW3 [((0 : Int), (0 : Int)), ((0 : Int), (1 : Int))] partial_ok =
          (if regW3A.type = ConstraintType.LESS
           then decide (memberSum regW3A valsW3 < memberSum regW3B valsW3)
           else decide (memberSum regW3A valsW3 > memberSum regW3B valsW3))) :=
  ⟨Or.inl rfl, by decide, by decide,
    (check_constraint_order_spec cfgW3 regW3A regW3B valsW3 _ (Or.inl rfl)
      (by decide) (by decide)).2⟩

/-! ### Claim C8: exclusion filtering is a pure order-preserving set difference -/

theorem exclude_dominoes_eq_filter (pool exclude : List Domino) :
    exclude_dominoes pool exclude = pool.filter (fun d => decide (d ∉ exclude)) := by
  induction pool with
  | nil => rfl
  | cons d rest ih =>
    by_cases h : d ∈ exclude
    · have hany : exclude.any (fun e => decide (d = e)) = true := by
        rw [List.any_eq_true]
        exact ⟨d, h, by simp⟩
      simp [exclude_dominoes, hany, ih, List.filter_cons, h]
    · have hany : exclude.any (fun e => decide (d = e)) = false := by
        rw [Bool.eq_false_iff]
        intro hc
        rw [List.any_eq_true] at hc
        obtain ⟨e, he, heq⟩ := hc
        rw [decide_eq_true_iff] at heq
        exact h (heq ▸ he)
      simp [exclude_dominoes, hany, ih, List.filter_cons, h]

/-- Claim C8: `exclude_dominoes` returns exactly the tiles of the pool
that do not equal any tile of the exclusion list, preserving the pool's
order (its result is a sublist of the pool); in particular, chaining a
tier on a prior tier's result removes exactly those tiles and no
others. -/
theorem exclude_dominoes_spec (pool exclude : List Domino) :
    (∀ d : Domino, d ∈ exclude_dominoes pool exclude ↔ (d ∈ pool ∧ d ∉ exclude)) ∧
    (exclude_dominoes pool exclude).Sublist pool := by
  rw [exclude_dominoes_eq_filter]
  constructor
  · intro d
    rw [List.mem_filter]
    simp
  · exact List.filter_sublist _

/-! ### Claim C5: the core performs no configuration validation -/

/-- A malformed configuration: the declared grid is 1 x 4, but the only
region covers just (0,0) and (0,1); cells (0,2) and (0,3) belong to no
region. -/
def cfgOmitted : Config :=
  { dominoes := [⟨1, 2⟩]
    regions := [⟨0, [(0, 0), (0, 1)], ConstraintType.SUM, 3, -1⟩]
    rows := 1
    cols := 4 }

/-- Claim C5 counterexample: on a configuration in which cell (0,2) of
the declared 1 x 4 grid is omitted from every region, the solver does not
detect anything and does not report a configuration error: it silently
searches only the region-covered cells and produces the solution count 2.
(The `solve` operation of the source has no error channel at all: it
always returns a count.) -/
theorem no_validation_counterexample :
    ((0 : Int), (2 : Int)) ∉ allCells cfgOmitted ∧ solutionCount cfgOmitted 3 = 2 := by
  constructor
  · decide
  · rfl

/-- Claim C5 (amended): the core performs no configuration validation and
reports no configuration error.  The solver's cell universe is derived
solely from the region list — the declared grid dimensions are ignored —
so a grid cell omitted from every region is silently excluded from the
search rather than detected, and `solve` always produces a solution
count. -/
theorem allCells_from_regions_only (regions : List Domino → List Region)
    (doms : List Domino) (rows cols rows2 cols2 : Int) (x : Cell) :
    (x ∈ allCells { dominoes := doms, regions := regions doms, rows := rows, cols := cols } ↔
      ∃ r ∈ regions doms, x ∈ r.cells) ∧
    allCells { dominoes := doms, regions := regions doms, rows := rows, cols := cols } =
      allCells { dominoes := doms, regions := regions doms, rows := rows2, cols := cols2 } := by
  exact ⟨mem_allCells_iff _ x, rfl⟩

/-! ### Claim C10: test_puzzle writes its output slot iff the count is exactly 1 -/

/-- Claim C10: for every call to `test_puzzle` with a non-null solution
output slot, the slot is written (with the placement list of the unique
accepted solution) iff the reported count is exactly 1; when the count is
0 or greater than 1, the slot is left unchanged. -/
theorem test_puzzle_frame_spec (dominoes : List Domino) (rows cols : Int)
    (regions : List Region) (slot : List PlacedDomino) :
    (test_puzzle dominoes rows cols regions (some slot)).1 =
      solutionCount { dominoes := dominoes, regions := regions, rows := rows, cols := cols } 3 ∧
    ((test_puzzle dominoes rows cols regions (some slot)).1 = 1 →
      ∃ s, (solveAcc { dominoes := dominoes, regions := regions, rows := rows, cols := cols }
              (some 3)).solutions = [s] ∧
        (test_puzzle dominoes rows cols regions (some slot)).2 = some s.placed) ∧
    ((test_puzzle dominoes rows cols regions (some slot)).1 ≠ 1 →
      (test_puzzle dominoes rows cols regions (some slot)).2 = some slot) := by
  unfold test_puzzle solutionCount
  by_cases hc :
      (solveAcc { dominoes := dominoes, regions := regions, rows := rows, cols := cols }
        (some 3)).solutions.length = 1
  · obtain ⟨s, hs⟩ := List.length_eq_one.mp hc
    refine ⟨by simp [hc], fun _ => ⟨s, hs, ?_⟩, fun hne => absurd (by simp [hc]) hne⟩
    simp [hc, hs]
  · simp [hc]

/-- A sentinel slot value used in the claim C10 witness. -/
def slotW : List PlacedDomino := [⟨⟨7, 7⟩, 0, 0, true⟩]

/-- Witness for `test_puzzle_frame_spec`: with no dominoes the count is
0, and the output slot is untouched. -/
theorem test_puzzle_frame_spec_witness :
    (test_puzzle [] 1 2 [regW2] (some slotW)).1 ≠ 1 ∧
    (test_puzzle [] 1 2 [regW2] (some slotW)).2 = some slotW :=
  ⟨by decide, (test_puzzle_frame_spec [] 1 2 [regW2] slotW).2.2 (by decide)⟩

/-! ### Claim C7: cell selection picks the most-constrained region first -/

theorem chooseFold_some (cfg : Config) (filled : List Cell) (l : List Cell) (bc : Cell)
    (hsort : CellSorted l) (hlt : ∀ c ∈ l, cellLt bc c = true) :
    (l.foldl (chooseStep cfg filled) (bc, some (regionUnfilledCount cfg filled bc)) =
        (bc, some (regionUnfilledCount cfg filled bc)) ∧
      (∀ c ∈ l, c ∉ filled →
        regionUnfilledCount cfg filled bc ≤ regionUnfilledCount cfg filled c)) ∨
    (∃ rc, l.foldl (chooseStep cfg filled) (bc, some (regionUnfilledCount cfg filled bc)) =
        (rc, some (regionUnfilledCount cfg filled rc)) ∧
      rc ∈ l ∧ rc ∉ filled ∧
      regionUnfilledCount cfg filled rc < regionUnfilledCount cfg filled bc ∧
      (∀ c ∈ l, c ∉ filled →
        regionUnfilledCount cfg filled rc ≤ regionUnfilledCount cfg filled c) ∧
      (∀ c ∈ l, c ∉ filled →
        regionUnfilledCount cfg filled c = regionUnfilledCount cfg filled rc →
        cellLe rc c)) := by
  induction l generalizing bc with
  | nil => exact Or.inl ⟨rfl, by simp⟩
  | cons c rest ih =>
    obtain ⟨hc, hrest⟩ := List.pairwise_cons.mp hsort
    have hltc : cellLt bc c = true := hlt c (List.mem_cons_self _ _)
    have hltrest : ∀ x ∈ rest, cellLt bc x = true :=
      fun x hx => hlt x (List.mem_cons_of_mem _ hx)
    rw [List.foldl_cons]
    by_cases hf : c ∈ filled
    · rw [show chooseStep cfg filled (bc, some (regionUnfilledCount cfg filled bc)) c =
          (bc, some (regionUnfilledCount cfg filled bc)) by simp [chooseStep, hf]]
      rcases ih bc hrest hltrest with ⟨heq, hmin⟩ | ⟨rc, heq, hmem, hnf, hless, hmin, htie⟩
      · refine Or.inl ⟨heq, fun x hx hxf => ?_⟩
        rcases List.mem_cons.mp hx with rfl | hx
        · exact absurd hf hxf
        · exact hmin x hx hxf
      · refine Or.inr ⟨rc, heq, List.mem_cons_of_mem _ hmem, hnf, hless, ?_, ?_⟩
        · intro x hx hxf
          rcases List.mem_cons.mp hx with rfl | hx
          · exact absurd hf hxf
          · exact hmin x hx hxf
        · intro x hx hxf hxe
          rcases List.mem_cons.mp hx with rfl | hx
          · exact absurd hf hxf
          · exact htie x hx hxf hxe
    · by_cases hlt2 : regionUnfilledCount cfg filled c < regionUnfilledCount cfg filled bc
      · rw [show chooseStep cfg filled (bc, some (regionUnfilledCount cfg filled bc)) c =
            (c, some (regionUnfilledCount cfg filled c)) by simp [chooseStep, hf, hlt2]]
        rcases ih c hrest hc with ⟨heq, hmin⟩ | ⟨rc, heq, hmem, hnf, hless, hmin, htie⟩
        · refine Or.inr ⟨c, heq, List.mem_cons_self _ _, hf, hlt2, ?_, ?_⟩
          · intro x hx hxf
            rcases List.mem_cons.mp hx with rfl | hx
            · exact le_refl _
            · exact hmin x hx hxf
          · intro x hx hxf hxe
            rcases List.mem_cons.mp hx with rfl | hx
            · exact Or.inl rfl
            · exact Or.inr (hc x hx)
        · refine Or.inr ⟨rc, heq, List.mem_cons_of_mem _ hmem, hnf,
            lt_trans hless hlt2, ?_, ?_⟩
          · intro x hx hxf
            rcases List.mem_cons.mp hx with rfl | hx
            · exact le_of_lt hless
            · exact hmin x hx hxf
          · intro x hx hxf hxe
            rcases List.mem_cons.mp hx with rfl | hx
            · omega
            · exact htie x hx hxf hxe
      · rw [show chooseStep cfg filled (bc, some (regionUnfilledCount cfg filled bc)) c =
            (bc, some (regionUnfilledCount cfg filled bc)) by simp [chooseStep, hf, hlt2]]
        rcases ih bc hrest hltrest with ⟨heq, hmin⟩ | ⟨rc, heq, hmem, hnf, hless, hmin, htie⟩
        · refine Or.inl ⟨heq, fun x hx hxf => ?_⟩
          rcases List.mem_cons.mp hx with rfl | hx
          · omega
          · exact hmin x hx hxf
        · refine Or.inr ⟨rc, heq, List.mem_cons_of_mem _ hmem, hnf, hless, ?_, ?_⟩
          · intro x hx hxf
            rcases List.mem_cons.mp hx with rfl | hx
            · omega
            · exact hmin x hx hxf
          · intro x hx hxf hxe
            rcases List.mem_cons.mp hx with rfl | hx
            · omega
            · exact htie x hx hxf hxe

theorem chooseFold_none (cfg : Config) (filled : List Cell) (l : List Cell) (b0 : Cell)
    (hsort : CellSorted l) :
    (l.foldl (chooseStep cfg filled) (b0, none) = (b0, none) ∧ ∀ c ∈ l, c ∈ filled) ∨
    (∃ rc, (l.foldl (chooseStep cfg filled) (b0, none)).1 = rc ∧
      rc ∈ l ∧ rc ∉ filled ∧
      (∀ c ∈ l, c ∉ filled →
        regionUnfilledCount cfg filled rc ≤ regionUnfilledCount cfg filled c) ∧
      (∀ c ∈ l, c ∉ filled →
        regionUnfilledCount cfg filled c = regionUnfilledCount cfg filled rc →
        cellLe rc c)) := by
  induction l generalizing b0 with
  | nil => exact Or.inl ⟨rfl, by simp⟩
  | cons c rest ih =>
    obtain ⟨hc, hrest⟩ := List.pairwise_cons.mp hsort
    rw [List.foldl_cons]
    by_cases hf : c ∈ filled
    · rw [show chooseStep cfg filled (b0, none) c = (b0, none) by simp [chooseStep, hf]]
      rcases ih b0 hrest with ⟨heq, hall⟩ | ⟨rc, heq, hmem, hnf, hmin, htie⟩
      · refine Or.inl ⟨heq, fun x hx => ?_⟩
        rcases List.mem_cons.mp hx with rfl | hx
        · exact hf
        · exact hall x hx
      · refine Or.inr ⟨rc, heq, List.mem_cons_of_mem _ hmem, hnf, ?_, ?_⟩
        · intro x hx hxf
          rcases List.mem_cons.mp hx with rfl | hx
          · exact absurd hf hxf
          · exact hmin x hx hxf
        · intro x hx hxf hxe
          rcases List.mem_cons.mp hx with rfl | hx
          · exact absurd hf hxf
          · exact htie x hx hxf hxe
    · rw [show chooseStep cfg filled (b0, none) c =
          (c, some (regionUnfilledCount cfg filled c)) by simp [chooseStep, hf]]
      rcases chooseFold_some cfg filled rest c hrest hc with
        ⟨heq, hmin⟩ | ⟨rc, heq, hmem, hnf, hless, hmin, htie⟩
      · refine Or.inr ⟨c, by rw [heq], List.mem_cons_self _ _, hf, ?_, ?_⟩
        · intro x hx hxf
          rcases List.mem_cons.mp hx with rfl | hx
          · exact le_refl _
          · exact hmin x hx hxf
        · intro x hx hxf hxe
          rcases List.mem_cons.mp hx with rfl | hx
          · exact Or.inl rfl
          · exact Or.inr (hc x hx)
      · refine Or.inr ⟨rc, by rw [heq], List.mem_cons_of_mem _ hmem, hnf, ?_, ?_⟩
        · intro x hx hxf
          rcases List.mem_cons.mp hx with rfl | hx
          · exact le_of_lt hless
          · exact hmin x hx hxf
        · intro x hx hxf hxe
          rcases List.mem_cons.mp hx with rfl | hx
          · omega
          · exact htie x hx hxf hxe

/-- Claim C7: whenever at least one cell of the solver's cell universe is
unfilled, `choose_cell` returns an unfilled cell whose owning region has
the minimum number of unfilled member cells among all unfilled cells, and
among cells tied at that minimum it returns the first in grid scan order
(row-major: smaller row first, then smaller column). -/
theorem choose_cell_spec (cfg : Config) (s : SolverState)
    (h : ∃ c ∈ allCells cfg, c ∉ s.filled_cells) :
    choose_cell cfg s ∈ allCells cfg ∧
    choose_cell cfg s ∉ s.filled_cells ∧
    (∀ c ∈ allCells cfg, c ∉ s.filled_cells →
      regionUnfilledCount cfg s.filled_cells (choose_cell cfg s) ≤
        regionUnfilledCount cfg s.filled_cells c) ∧
    (∀ c ∈ allCells cfg, c ∉ s.filled_cells →
      regionUnfilledCount cfg s.filled_cells c =
        regionUnfilledCount cfg s.filled_cells (choose_cell cfg s) →
      cellLe (choose_cell cfg s) c) := by
  obtain ⟨c0, hc0, hc0f⟩ := h
  rcases chooseFold_none cfg s.filled_cells (allCells cfg) ((-1 : Int), (-1 : Int))
      (allCells_sorted cfg) with ⟨_, hall⟩ | ⟨rc, heq, hmem, hnf, hmin, htie⟩
  · exact absurd (hall c0 hc0) hc0f
  · have hcc : choose_cell cfg s = rc := heq
    rw [hcc]
    exact ⟨hmem, hnf, hmin, htie⟩

/-- Witness configuration for claim C7: region 1 has a single (unfilled)
cell, region 0 has three, so (1,0) must be selected. -/
def cfgW7 : Config :=
  { dominoes := []
    regions := [⟨0, [(0, 0), (0, 1), (1, 1)], ConstraintType.SUM, 0, -1⟩,
                ⟨1, [(1, 0)], ConstraintType.SUM, 0, -1⟩]
    rows := 2
    cols := 2 }

/-- Witness for `choose_cell_spec` at a concrete configuration. -/
theorem choose_cell_spec_witness :
    (∃ c ∈ allCells cfgW7, c ∉ emptyState.filled_cells) ∧
    (choose_cell cfgW7 emptyState ∈ allCells cfgW7 ∧
     choose_cell cfgW7 emptyState ∉ emptyState.filled_cells ∧
     (∀ c ∈ allCells cfgW7, c ∉ emptyState.filled_cells →
       regionUnfilledCount cfgW7 emptyState.filled_cells (choose_cell cfgW7 emptyState) ≤
         regionUnfilledCount cfgW7 emptyState.filled_cells c) ∧
     (∀ c ∈ allCells cfgW7, c ∉ emptyState.filled_cells →
       regionUnfilledCount cfgW7 emptyState.filled_cells c =
         regionUnfilledCount cfgW7 emptyState.filled_cells (choose_cell cfgW7 emptyState) →
       cellLe (choose_cell cfgW7 emptyState) c)) :=
  ⟨by decide, choose_cell_spec cfgW7 emptyState (by decide)⟩

/-! ### Claim C6: solve on an empty region list -/

/-- A configuration with no regions (hence zero cells). -/
def cfgNoRegions : Config := { dominoes := [], regions := [], rows := 0, cols := 0 }

/-- Claim C6 counterexample: with an empty region list `solve` returns 1,
not 0: the empty root state is already "complete" (0 filled cells out of
0), the vacuous constraint check passes, and the empty assignment is
recorded as a solution. -/
theorem solve_no_regions_counterexample :
    solutionCount cfgNoRegions 3 = 1 ∧ ¬ solutionCount cfgNoRegions 3 = 0 := by
  constructor
  · rfl
  · intro h
    simp [solutionCount, solveAcc, cfgNoRegions, allCells, backtrack, stopAt, emptyAcc,
      completeCheck, acceptState, emptyState] at h

/-- Claim C6 (amended): for every configuration whose region list is
empty (so the solver's cell universe is empty), `solve` with any cap of
at least 1 immediately returns 1: the empty assignment is accepted as the
single (vacuously valid) solution. -/
theorem solve_no_regions (dominoes : List Domino) (rows cols : Int) (k : Nat)
    (hk : 1 ≤ k) :
    solutionCount { dominoes := dominoes, regions := [], rows := rows, cols := cols } k = 1 := by
  have hcells : allCells { dominoes := dominoes, regions := [], rows := rows, cols := cols } = [] := rfl
  have hstop : stopAt (some k) { solutions := [], seen := [] } = false := by
    simp only [stopAt, List.length_nil, decide_eq_false_iff_not]
    omega
  simp [solutionCount, solveAcc, hcells, backtrack, hstop, completeCheck, acceptState,
    emptyState, emptyAcc]

/-- Witness for `solve_no_regions` at a concrete input. -/
theorem solve_no_regions_witness :
    1 ≤ 3 ∧ solutionCount { dominoes := [], regions := [], rows := 0, cols := 0 } 3 = 1 :=
  ⟨by decide, solve_no_regions [] 0 0 3 (by decide)⟩

/-! ### Claim C9: invariants of states reachable by the backtracking search -/

/-- The assignment states on which the backtracking recursion is invoked:
the empty root state, plus every successor built by the extension step of
`Solver::backtrack` under exactly the guards the code checks on the way
to the recursive call (state not yet complete, valid chosen cell, unused
domino from the tile list, unfilled adjacent cell, a legal orientation,
and the partial-mode constraint check passing). -/
inductive Reachable (cfg : Config) : SolverState → Prop where
  | root : Reachable cfg emptyState
  | step (s : SolverState) (d : Domino) (adj : Cell) (pc pa : Int)
      (hs : Reachable cfg s)
      (hincomplete : s.filled_cells.length ≠ (allCells cfg).length)
      (hcell : 0 ≤ (choose_cell cfg s).1)
      (hd : d ∈ cfg.dominoes)
      (hused : d ∉ s.used_dominoes)
      (hadj : adj ∈ get_adjacent cfg (choose_cell cfg s))
      (hfil : adj ∉ s.filled_cells)
      (hor : (pc, pa) ∈ orientations d)
      (hvalid : validExtension cfg (choose_cell cfg s) adj
        (nextState s (choose_cell cfg s) d adj pc pa).cell_values
        (nextState s (choose_cell cfg s) d adj pc pa).filled_cells = true) :
      Reachable cfg (nextState s (choose_cell cfg s) d adj pc pa)

theorem domInsert_of_not_mem {s : List Domino} {d : Domino} (h : d ∉ s) :
    domInsert s d = s ++ [d] := by
  simp [domInsert, h]

theorem reachable_aux (cfg : Config) (s : SolverState) (hs : Reachable cfg s) :
    (s.placed.map (fun p => p.domino)).Nodup ∧
    (∀ d : Domino, d ∈ s.used_dominoes ↔ d ∈ s.placed.map (fun p => p.domino)) ∧
    s.filled_cells = s.cell_values.map Prod.fst ∧
    CellSorted s.filled_cells := by
  induction hs with
  | root =>
    refine ⟨by simp [emptyState], fun d => by simp [emptyState], rfl, ?_⟩
    simp [emptyState]
  | step s d adj pc pa hs hincomplete hcell hd hused hadj hfil hor hvalid ih =>
    obtain ⟨ih1, ih2, ih3, ih4⟩ := ih
    refine ⟨?_, ?_, ?_, ?_⟩
    · rw [nextState]
      simp only [List.map_append, List.map_cons, List.map_nil]
      rw [List.nodup_append]
      refine ⟨ih1, List.nodup_singleton _, ?_⟩
      intro a ha hb
      rw [List.mem_singleton] at hb
      have hb2 : a = d := hb
      rw [hb2] at ha
      exact hused ((ih2 d).mpr ha)
    · intro x
      rw [nextState]
      simp only [domInsert_of_not_mem hused, List.map_append, List.map_cons, List.map_nil,
        List.mem_append, List.mem_singleton]
      have : (mkPlacement d (choose_cell cfg s) adj).domino = d := rfl
      rw [this]
      rw [ih2 x]
    · rw [nextState]
      simp only [mapInsert_keys, ih3]
    · rw [nextState]
      exact setInsert_sorted (setInsert_sorted ih4)

/-- Claim C9: every assignment state reachable by the backtracking search
from the empty root state satisfies: the used-tile set and the placed
list are in 1:1 correspondence (the used set contains exactly the tiles
of the placed list, and no tile is placed twice), the filled-cell set is
exactly the key list of the cell-to-value map, and no cell appears twice
in the filled-cell set. -/
theorem reachable_state_invariants (cfg : Config) (s : SolverState)
    (hs : Reachable cfg s) :
    (s.placed.map (fun p => p.domino)).Nodup ∧
    (∀ d : Domino, d ∈ s.used_dominoes ↔ d ∈ s.placed.map (fun p => p.domino)) ∧
    s.filled_cells = s.cell_values.map Prod.fst ∧
    s.filled_cells.Nodup := by
  obtain ⟨h1, h2, h3, h4⟩ := reachable_aux cfg s hs
  exact ⟨h1, h2, h3, h4.nodup⟩

/-- Witness for `reachable_state_invariants` at the root state of a
concrete configuration. -/
theorem reachable_state_invariants_witness :
    (emptyState.placed.map (fun p => p.domino)).Nodup ∧
    (∀ d : Domino, d ∈ emptyState.used_dominoes ↔
      d ∈ emptyState.placed.map (fun p => p.domino)) ∧
    emptyState.filled_cells = emptyState.cell_values.map Prod.fst ∧
    emptyState.filled_cells.Nodup :=
  reachable_state_invariants cfgW7 emptyState Reachable.root

/-! ### Claim C1: cap correctness

The capped search is related to the uncapped reference run of the same
enumeration: its recorded solutions are exactly the first `k` solutions
of the uncapped run, so the reported count is `min k (true count)`. -/

/-- `b` extends `a`: both accumulator components of `b` append to those
of `a` (the search only ever pushes onto `solutions` and `seen`). -/
def SearchAcc.Extends (a b : SearchAcc) : Prop :=
  (∃ t, b.solutions = a.solutions ++ t) ∧ (∃ t, b.seen = a.seen ++ t)

theorem extends_refl (a : SearchAcc) : a.Extends a :=
  ⟨⟨[], by simp⟩, ⟨[], by simp⟩⟩

theorem extends_trans {a b c : SearchAcc} (h1 : a.Extends b) (h2 : b.Extends c) :
    a.Extends c := by
  obtain ⟨⟨t1, ht1⟩, ⟨t2, ht2⟩⟩ := h1
  obtain ⟨⟨t3, ht3⟩, ⟨t4, ht4⟩⟩ := h2
  exact ⟨⟨t1 ++ t3, by rw [ht3, ht1, List.append_assoc]⟩,
    ⟨t2 ++ t4, by rw [ht4, ht2, List.append_assoc]⟩⟩

theorem acceptState_extends (s : SolverState) (acc : SearchAcc) :
    acc.Extends (acceptState s acc) := by
  unfold acceptState
  by_cases h : s.cell_values ∈ acc.seen
  · rw [if_pos h]
    exact extends_refl acc
  · rw [if_neg h]
    exact ⟨⟨[s], rfl⟩, ⟨[s.cell_values], rfl⟩⟩

theorem tryOrients_extends (cfg : Config) (cap : Option Nat)
    (rec : SolverState → SearchAcc → SearchAcc) (s : SolverState) (cell : Cell)
    (d : Domino) (adj : Cell)
    (hrec : ∀ ns acc, SearchAcc.Extends acc (rec ns acc)) :
    ∀ os acc, SearchAcc.Extends acc (tryOrients cfg cap rec s cell d adj os acc) := by
  intro os
  induction os with
  | nil => intro acc; exact extends_refl acc
  | cons o rest ih =>
    intro acc
    obtain ⟨pc, pa⟩ := o
    simp only [tryOrients]
    by_cases hv : validExtension cfg cell adj (nextState s cell d adj pc pa).cell_values
        (nextState s cell d adj pc pa).filled_cells = true
    · rw [if_pos hv]
      by_cases hstop : stopAt cap (rec (nextState s cell d adj pc pa) acc) = true
      · rw [if_pos hstop]
        exact hrec _ _
      · rw [if_neg hstop]
        exact extends_trans (hrec _ _) (ih _)
    · rw [if_neg hv]
      exact ih _

theorem tryAdjs_extends (cfg : Config) (cap : Option Nat)
    (rec : SolverState → SearchAcc → SearchAcc) (s : SolverState) (cell : Cell)
    (d : Domino)
    (hrec : ∀ ns acc, SearchAcc.Extends acc (rec ns acc)) :
    ∀ adjs acc, SearchAcc.Extends acc (tryAdjs cfg cap rec s cell d adjs acc) := by
  intro adjs
  induction adjs with
  | nil => intro acc; exact extends_refl acc
  | cons adj rest ih =>
    intro acc
    simp only [tryAdjs]
    by_cases h1 : adj ∈ s.filled_cells
    · rw [if_pos h1]
      exact ih _
    · rw [if_neg h1]
      by_cases h2 : ((cellToRegion cfg cell).isNone || (cellToRegion cfg adj).isNone) = true
      · rw [if_pos h2]
        exact ih _
      · rw [if_neg h2]
        by_cases hstop : stopAt cap (tryOrients cfg cap rec s cell d adj (orientations d) acc) = true
        · rw [if_pos hstop]
          exact tryOrients_extends cfg cap rec s cell d adj hrec (orientations d) acc
        · rw [if_neg hstop]
          exact extends_trans (tryOrients_extends cfg cap rec s cell d adj hrec (orientations d) acc) (ih _)

theorem tryDominoes_extends (cfg : Config) (cap : Option Nat)
    (rec : SolverState → SearchAcc → SearchAcc) (s : SolverState) (cell : Cell)
    (hrec : ∀ ns acc, SearchAcc.Extends acc (rec ns acc)) :
    ∀ ds acc, SearchAcc.Extends acc (tryDominoes cfg cap rec s cell ds acc) := by
  intro ds
  induction ds with
  | nil => intro acc; exact extends_refl acc
  | cons d rest ih =>
    intro acc
    simp only [tryDominoes]
    by_cases h1 : d ∈ s.used_dominoes
    · rw [if_pos h1]
      exact ih _
    · rw [if_neg h1]
      by_cases hstop : stopAt cap (tryAdjs cfg cap rec s cell d (get_adjacent cfg cell) acc) = true
      · rw [if_pos hstop]
        exact tryAdjs_extends cfg cap rec s cell d hrec (get_adjacent cfg cell) acc
      · rw [if_neg hstop]
        exact extends_trans (tryAdjs_extends cfg cap rec s cell d hrec (get_adjacent cfg cell) acc) (ih _)

theorem backtrack_extends (cfg : Config) (cap : Option Nat) :
    ∀ fuel s acc, SearchAcc.Extends acc (backtrack cfg cap fuel s acc) := by
  intro fuel
  induction fuel with
  | zero => intro s acc; exact extends_refl acc
  | succ fuel ih =>
    intro s acc
    simp only [backtrack]
    by_cases h1 : stopAt cap acc = true
    · rw [if_pos h1]
      exact extends_refl acc
    · rw [if_neg h1]
      by_cases h2 : s.filled_cells.length = (allCells cfg).length
      · rw [if_pos h2]
        by_cases h3 : completeCheck cfg s = true
        · rw [if_pos h3]
          exact acceptState_extends s acc
        · rw [if_neg h3]
          exact extends_refl acc
      · rw [if_neg h2]
        by_cases h4 : (choose_cell cfg s).1 < 0
        · rw [if_pos h4]
          exact extends_refl acc
        · rw [if_neg h4]
          exact tryDominoes_extends cfg cap (backtrack cfg cap fuel) s (choose_cell cfg s)
            (fun ns a => ih ns a) cfg.dominoes acc

theorem take_append_of_le_len (k : Nat) {α : Type} (l t : List α) (h : k ≤ l.length) :
    (l ++ t).take k = l.take k := by
  rw [List.take_append_eq_append_take]
  have h0 : k - l.length = 0 := by omega
  rw [h0, List.take_zero, List.append_nil]

theorem take_all_of_len_le {α : Type} :
    ∀ (l : List α) (k : Nat), l.length ≤ k → l.take k = l
  | [], k, _ => by simp
  | a :: l, k, h => by
    cases k with
    | zero => simp at h
    | succ k =>
      simp only [List.take_succ_cons]
      rw [take_all_of_len_le l k (by simpa using h)]

/-- Simulation relation between the accumulator of the capped run and the
accumulator of the uncapped run at the same point of the search: the
capped solutions are the first `k` uncapped solutions, and while the cap
is not yet hit the two runs agree exactly. -/
def SimR (k : Nat) (a u : SearchAcc) : Prop :=
  a.solutions = u.solutions.take k ∧ (a.solutions.length < k → a = u)

theorem simR_emptyAcc (k : Nat) : SimR k emptyAcc emptyAcc :=
  ⟨by simp [emptyAcc], fun _ => rfl⟩

theorem simR_len_le {k : Nat} {a u : SearchAcc} (h : SimR k a u) :
    a.solutions.length ≤ k := by
  have := congrArg List.length h.1
  rw [List.length_take] at this
  omega

theorem simR_frozen_extends {k : Nat} {a u u2 : SearchAcc} (h : SimR k a u)
    (hlen : k ≤ a.solutions.length) (hext : u.Extends u2) : SimR k a u2 := by
  have hlen2 : a.solutions.length = k := le_antisymm (simR_len_le h) hlen
  have hku : k ≤ u.solutions.length := by
    have := congrArg List.length h.1
    rw [List.length_take] at this
    omega
  obtain ⟨t, ht⟩ := hext.1
  refine ⟨?_, fun hlt => absurd hlt (by omega)⟩
  rw [ht, take_append_of_le_len k _ _ hku]
  exact h.1

theorem simR_acceptState {k : Nat} {a u : SearchAcc} (s : SolverState) (h : SimR k a u)
    (hlt : a.solutions.length < k) : SimR k (acceptState s a) (acceptState s u) := by
  have heq : a = u := h.2 hlt
  subst heq
  have hlen : (acceptState s a).solutions.length ≤ k := by
    unfold acceptState
    by_cases hm : s.cell_values ∈ a.seen
    · rw [if_pos hm]
      omega
    · rw [if_neg hm]
      simp only [List.length_append, List.length_singleton]
      omega
  exact ⟨(take_all_of_len_le _ k hlen).symm, fun _ => rfl⟩

theorem tryOrients_sim (cfg : Config) (k : Nat)
    (recC recU : SolverState → SearchAcc → SearchAcc) (s : SolverState)
    (cell : Cell) (d : Domino) (adj : Cell)
    (hrecSim : ∀ ns a u, SimR k a u → SimR k (recC ns a) (recU ns u))
    (hrecExt : ∀ ns u, SearchAcc.Extends u (recU ns u)) :
    ∀ os a u, SimR k a u →
      SimR k (tryOrients cfg (some k) recC s cell d adj os a)
        (tryOrients cfg none recU s cell d adj os u) := by
  intro os
  induction os with
  | nil => intro a u h; exact h
  | cons o rest ih =>
    intro a u hsim
    obtain ⟨pc, pa⟩ := o
    simp only [tryOrients]
    by_cases hv : validExtension cfg cell adj (nextState s cell d adj pc pa).cell_values
        (nextState s cell d adj pc pa).filled_cells = true
    · rw [if_pos hv, if_pos hv]
      rw [if_neg (show ¬ stopAt none (recU (nextState s cell d adj pc pa) u) = true from by
        simp [stopAt])]
      have hsim1 := hrecSim (nextState s cell d adj pc pa) a u hsim
      by_cases hstop : stopAt (some k) (recC (nextState s cell d adj pc pa) a) = true
      · rw [if_pos hstop]
        have hlen : k ≤ (recC (nextState s cell d adj pc pa) a).solutions.length := by
          simpa [stopAt] using hstop
        exact simR_frozen_extends hsim1 hlen
          (tryOrients_extends cfg none recU s cell d adj hrecExt rest _)
      · rw [if_neg hstop]
        exact ih _ _ hsim1
    · rw [if_neg hv, if_neg hv]
      exact ih a u hsim

theorem tryAdjs_sim (cfg : Config) (k : Nat)
    (recC recU : SolverState → SearchAcc → SearchAcc) (s : SolverState)
    (cell : Cell) (d : Domino)
    (hrecSim : ∀ ns a u, SimR k a u → SimR k (recC ns a) (recU ns u))
    (hrecExt : ∀ ns u, SearchAcc.Extends u (recU ns u)) :
    ∀ adjs a u, SimR k a u →
      SimR k (tryAdjs cfg (some k) recC s cell d adjs a)
        (tryAdjs cfg none recU s cell d adjs u) := by
  intro adjs
  induction adjs with
  | nil => intro a u h; exact h
  | cons adj rest ih =>
    intro a u hsim
    simp only [tryAdjs]
    by_cases h1 : adj ∈ s.filled_cells
    · rw [if_pos h1, if_pos h1]
      exact ih a u hsim
    · rw [if_neg h1, if_neg h1]
      by_cases h2 : ((cellToRegion cfg cell).isNone || (cellToRegion cfg adj).isNone) = true
      · rw [if_pos h2, if_pos h2]
        exact ih a u hsim
      · rw [if_neg h2, if_neg h2]
        rw [if_neg (show ¬ stopAt none
            (tryOrients cfg none recU s cell d adj (orientations d) u) = true from by
          simp [stopAt])]
        have hsimO := tryOrients_sim cfg k recC recU s cell d adj hrecSim hrecExt
          (orientations d) a u hsim
        by_cases hstop : stopAt (some k)
            (tryOrients cfg (some k) recC s cell d adj (orientations d) a) = true
        · rw [if_pos hstop]
          have hlen : k ≤ (tryOrients cfg (some k) recC s cell d adj
              (orientations d) a).solutions.length := by
            simpa [stopAt] using hstop
          exact simR_frozen_extends hsimO hlen
            (tryAdjs_extends cfg none recU s cell d hrecExt rest _)
        · rw [if_neg hstop]
          exact ih _ _ hsimO

theorem tryDominoes_sim (cfg : Config) (k : Nat)
    (recC recU : SolverState → SearchAcc → SearchAcc) (s : SolverState)
    (cell : Cell)
    (hrecSim : ∀ ns a u, SimR k a u → SimR k (recC ns a) (recU ns u))
    (hrecExt : ∀ ns u, SearchAcc.Extends u (recU ns u)) :
    ∀ ds a u, SimR k a u →
      SimR k (tryDominoes cfg (some k) recC s cell ds a)
        (tryDominoes cfg none recU s cell ds u) := by
  intro ds
  induction ds with
  | nil => intro a u h; exact h
  | cons d rest ih =>
    intro a u hsim
    simp only [tryDominoes]
    by_cases h1 : d ∈ s.used_dominoes
    · rw [if_pos h1, if_pos h1]
      exact ih a u hsim
    · rw [if_neg h1, if_neg h1]
      rw [if_neg (show ¬ stopAt none
          (tryAdjs cfg none recU s cell d (get_adjacent cfg cell) u) = true from by
        simp [stopAt])]
      have hsimA := tryAdjs_sim cfg k recC recU s cell d hrecSim hrecExt
        (get_adjacent cfg cell) a u hsim
      by_cases hstop : stopAt (some k)
          (tryAdjs cfg (some k) recC s cell d (get_adjacent cfg cell) a) = true
      · rw [if_pos hstop]
        have hlen : k ≤ (tryAdjs cfg (some k) recC s cell d
            (get_adjacent cfg cell) a).solutions.length := by
          simpa [stopAt] using hstop
        exact simR_frozen_extends hsimA hlen
          (tryDominoes_extends cfg none recU s cell hrecExt rest _)
      · rw [if_neg hstop]
        exact ih _ _ hsimA

theorem backtrack_sim (cfg : Config) (k : Nat) :
    ∀ fuel s a u, SimR k a u →
      SimR k (backtrack cfg (some k) fuel s a) (backtrack cfg none fuel s u) := by
  intro fuel
  induction fuel with
  | zero => intro s a u h; exact h
  | succ fuel ih =>
    intro s a u hsim
    by_cases h1 : stopAt (some k) a = true
    · have hC : backtrack cfg (some k) (fuel + 1) s a = a := by
        simp only [backtrack]
        rw [if_pos h1]
      rw [hC]
      have hlen : k ≤ a.solutions.length := by
        simpa [stopAt] using h1
      exact simR_frozen_extends hsim hlen (backtrack_extends cfg none (fuel + 1) s u)
    · have hlt : a.solutions.length < k := by
        simp only [stopAt, decide_eq_true_eq] at h1
        omega
      have heq : a = u := hsim.2 hlt
      subst heq
      simp only [backtrack]
      rw [if_neg h1, if_neg (show ¬ stopAt none a = true from by simp [stopAt])]
      by_cases h2 : s.filled_cells.length = (allCells cfg).length
      · rw [if_pos h2, if_pos h2]
        by_cases h3 : completeCheck cfg s = true
        · rw [if_pos h3]
          exact simR_acceptState s hsim hlt
        · rw [if_neg h3]
          exact hsim
      · rw [if_neg h2, if_neg h2]
        by_cases h4 : (choose_cell cfg s).1 < 0
        · rw [if_pos h4, if_pos h4]
          exact hsim
        · rw [if_neg h4, if_neg h4]
          exact tryDominoes_sim cfg k (backtrack cfg (some k) fuel) (backtrack cfg none fuel)
            s (choose_cell cfg s) (fun ns a u h => ih ns a u h)
            (fun ns u => backtrack_extends cfg none fuel ns u) cfg.dominoes a a hsim

theorem solveAcc_take (cfg : Config) (k : Nat) :
    (solveAcc cfg (some k)).solutions = ((solveAcc cfg none).solutions).take k :=
  (backtrack_sim cfg k ((allCells cfg).length + 1) emptyState emptyAcc emptyAcc
    (simR_emptyAcc k)).1

theorem solutionCount_eq_min (cfg : Config) (k : Nat) :
    solutionCount cfg k = min k (distinctSolutionCount cfg) := by
  unfold solutionCount distinctSolutionCount
  rw [solveAcc_take cfg k, List.length_take]

/-- Claim C1: for every configuration and every cap k >= 1, `solve`
reports at most k solutions, and whenever the true number of distinct
(signature-deduplicated) solutions — the count the same search reports
with the cap removed — is at most k, the reported count equals that true
count. -/
theorem solve_cap_spec (cfg : Config) (k : Nat) (_hk : 1 ≤ k) :
    solutionCount cfg k ≤ k ∧
    (distinctSolutionCount cfg ≤ k →
      solutionCount cfg k = distinctSolutionCount cfg) := by
  rw [solutionCount_eq_min cfg k]
  exact ⟨Nat.min_le_left _ _, fun h => Nat.min_eq_right h⟩

/-- Witness for `solve_cap_spec` at a concrete configuration (a 1 x 2 SUM
puzzle with two deduplicated solutions and cap 3). -/
theorem solve_cap_spec_witness :
    1 ≤ 3 ∧ (solutionCount cfgW2 3 ≤ 3 ∧
      (distinctSolutionCount cfgW2 ≤ 3 →
        solutionCount cfgW2 3 = distinctSolutionCount cfgW2)) :=
  ⟨by decide, solve_cap_spec cfgW2 3 (by decide)⟩

/-! ### Claim C4: signature deduplication -/

theorem mapFind_head (k : Cell) (v : Int) (rest : ValMap) :
    mapFind ((k, v) :: rest) k = some v := by
  simp [mapFind]

theorem mapFind_eq_none {m : ValMap} {c : Cell} (h : c ∉ m.map Prod.fst) :
    mapFind m c = none := by
  induction m with
  | nil => rfl
  | cons kv rest ih =>
    obtain ⟨k, v⟩ := kv
    simp only [List.map_cons, List.mem_cons] at h
    push_neg at h
    obtain ⟨h1, h2⟩ := h
    simp only [mapFind]
    rw [if_neg (fun he => h1 he.symm)]
    exact ih h2

theorem mem_keys_of_mapFind_some {m : ValMap} {c : Cell} {v : Int}
    (h : mapFind m c = some v) : c ∈ m.map Prod.fst := by
  by_contra hc
  rw [mapFind_eq_none hc] at h
  exact Option.noConfusion h

theorem head_not_mem_keys {k : Cell} {keys : List Cell}
    (h : CellSorted (k :: keys)) : k ∉ keys := by
  obtain ⟨hk, _⟩ := List.pairwise_cons.mp h
  intro hm
  have := hk k hm
  rw [cellLt_irrefl] at this
  exact Bool.false_ne_true this

/-- Two value maps with sorted key lists and identical lookups are equal:
the sorted representation of std::map is canonical, so signature equality
of value maps is exactly extensional equality. -/
theorem sorted_map_ext : ∀ {m1 m2 : ValMap},
    CellSorted (m1.map Prod.fst) → CellSorted (m2.map Prod.fst) →
    (∀ c, mapFind m1 c = mapFind m2 c) → m1 = m2
  | [], [], _, _, _ => rfl
  | [], (k2, v2) :: r2, _, _, h => by
    have := h k2
    rw [mapFind_head] at this
    exact Option.noConfusion this
  | (k1, v1) :: r1, [], _, _, h => by
    have := h k1
    rw [mapFind_head] at this
    exact Option.noConfusion this
  | (k1, v1) :: r1, (k2, v2) :: r2, h1, h2, h => by
    have hs1 := h1
    have hs2 := h2
    simp only [List.map_cons] at hs1 hs2
    have hk : k1 = k2 := by
      by_contra hne
      have hm1 : k1 ∈ k2 :: r2.map Prod.fst := by
        have := (h k1).symm
        rw [mapFind_head] at this
        simpa using mem_keys_of_mapFind_some this
      have hm2 : k2 ∈ k1 :: r1.map Prod.fst := by
        have := h k2
        rw [mapFind_head] at this
        simpa using mem_keys_of_mapFind_some this
      rcases List.mem_cons.mp hm1 with he | hm1
      · exact hne he
      · rcases List.mem_cons.mp hm2 with he | hm2
        · exact hne he.symm
        · obtain ⟨ha1, _⟩ := List.pairwise_cons.mp hs1
          obtain ⟨ha2, _⟩ := List.pairwise_cons.mp hs2
          have hlt1 : cellLt k1 k2 = true := ha1 k2 hm2
          have hlt2 : cellLt k2 k1 = true := ha2 k1 hm1
          have := cellLt_trans hlt1 hlt2
          rw [cellLt_irrefl] at this
          exact Bool.false_ne_true this
    subst hk
    have hv : v1 = v2 := by
      have := h k1
      rw [mapFind_head, mapFind_head] at this
      exact Option.some.inj this
    subst hv
    have htail : r1 = r2 := by
      refine sorted_map_ext (List.pairwise_cons.mp hs1).2 (List.pairwise_cons.mp hs2).2
        (fun c => ?_)
      by_cases hc : c = k1
      · subst hc
        rw [mapFind_eq_none (head_not_mem_keys hs1),
          mapFind_eq_none (head_not_mem_keys hs2)]
      · have := h c
        simp only [mapFind] at this
        rw [if_neg (fun he => hc he.symm)] at this
        rw [if_neg (fun he => hc he.symm)] at this
        exact this
    rw [htail]

/-- The accumulator invariant behind deduplication: recorded solutions
have pairwise distinct signatures, every recorded signature is in the
seen-signature set, and every recorded solution's value map has a sorted
(canonical) key list. -/
def DedupInv (acc : SearchAcc) : Prop :=
  (acc.solutions.map (fun s => s.cell_values)).Nodup ∧
  (∀ s ∈ acc.solutions, s.cell_values ∈ acc.seen) ∧
  (∀ s ∈ acc.solutions, CellSorted (s.cell_values.map Prod.fst))

theorem dedupInv_empty : DedupInv emptyAcc :=
  ⟨by simp [emptyAcc], by simp [emptyAcc], by simp [emptyAcc]⟩

theorem acceptState_dedupInv (s : SolverState) (acc : SearchAcc)
    (hss : CellSorted (s.cell_values.map Prod.fst)) (h : DedupInv acc) :
    DedupInv (acceptState s acc) := by
  obtain ⟨h1, h2, h3⟩ := h
  unfold acceptState
  by_cases hm : s.cell_values ∈ acc.seen
  · rw [if_pos hm]
    exact ⟨h1, h2, h3⟩
  · rw [if_neg hm]
    refine ⟨?_, ?_, ?_⟩
    · simp only [List.map_append, List.map_cons, List.map_nil]
      rw [List.nodup_append]
      refine ⟨h1, List.nodup_singleton _, ?_⟩
      intro a ha hb
      rw [List.mem_singleton] at hb
      obtain ⟨s1, hs1, hcv⟩ := List.mem_map.mp ha
      apply hm
      rw [← hb, ← hcv]
      exact h2 s1 hs1
    · intro x hx
      simp only [List.mem_append, List.mem_singleton]
      rcases List.mem_append.mp hx with hx | hx
      · exact Or.inl (h2 x hx)
      · rw [List.mem_singleton] at hx
        subst hx
        exact Or.inr rfl
    · intro x hx
      rcases List.mem_append.mp hx with hx | hx
      · exact h3 x hx
      · rw [List.mem_singleton] at hx
        subst hx
        exact hss

theorem nextState_keys_sorted (s : SolverState) (cell : Cell) (d : Domino) (adj : Cell)
    (pc pa : Int) (hs : CellSorted (s.cell_values.map Prod.fst)) :
    CellSorted ((nextState s cell d adj pc pa).cell_values.map Prod.fst) := by
  rw [nextState]
  simp only [mapInsert_keys]
  exact setInsert_sorted (setInsert_sorted hs)

theorem tryOrients_dedupInv (cfg : Config) (cap : Option Nat)
    (rec : SolverState → SearchAcc → SearchAcc) (s : SolverState) (cell : Cell)
    (d : Domino) (adj : Cell)
    (hrec : ∀ ns acc, CellSorted (ns.cell_values.map Prod.fst) → DedupInv acc →
      DedupInv (rec ns acc))
    (hss : CellSorted (s.cell_values.map Prod.fst)) :
    ∀ os acc, DedupInv acc → DedupInv (tryOrients cfg cap rec s cell d adj os acc) := by
  intro os
  induction os with
  | nil => intro acc h; exact h
  | cons o rest ih =>
    intro acc h
    obtain ⟨pc, pa⟩ := o
    simp only [tryOrients]
    by_cases hv : validExtension cfg cell adj (nextState s cell d adj pc pa).cell_values
        (nextState s cell d adj pc pa).filled_cells = true
    · rw [if_pos hv]
      have hinner := hrec (nextState s cell d adj pc pa) acc
        (nextState_keys_sorted s cell d adj pc pa hss) h
      by_cases hstop : stopAt cap (rec (nextState s cell d adj pc pa) acc) = true
      · rw [if_pos hstop]
        exact hinner
      · rw [if_neg hstop]
        exact ih _ hinner
    · rw [if_neg hv]
      exact ih _ h

theorem tryAdjs_dedupInv (cfg : Config) (cap : Option Nat)
    (rec : SolverState → SearchAcc → SearchAcc) (s : SolverState) (cell : Cell)
    (d : Domino)
    (hrec : ∀ ns acc, CellSorted (ns.cell_values.map Prod.fst) → DedupInv acc →
      DedupInv (rec ns acc))
    (hss : CellSorted (s.cell_values.map Prod.fst)) :
    ∀ adjs acc, DedupInv acc → DedupInv (tryAdjs cfg cap rec s cell d adjs acc) := by
  intro adjs
  induction adjs with
  | nil => intro acc h; exact h
  | cons adj rest ih =>
    intro acc h
    simp only [tryAdjs]
    by_cases h1 : adj ∈ s.filled_cells
    · rw [if_pos h1]
      exact ih _ h
    · rw [if_neg h1]
      by_cases h2 : ((cellToRegion cfg cell).isNone || (cellToRegion cfg adj).isNone) = true
      · rw [if_pos h2]
        exact ih _ h
      · rw [if_neg h2]
        have hinner := tryOrients_dedupInv cfg cap rec s cell d adj hrec hss
          (orientations d) acc h
        by_cases hstop : stopAt cap
            (tryOrients cfg cap rec s cell d adj (orientations d) acc) = true
        · rw [if_pos hstop]
          exact hinner
        · rw [if_neg hstop]
          exact ih _ hinner

theorem tryDominoes_dedupInv (cfg : Config) (cap : Option Nat)
    (rec : SolverState → SearchAcc → SearchAcc) (s : SolverState) (cell : Cell)
    (hrec : ∀ ns acc, CellSorted (ns.cell_values.map Prod.fst) → DedupInv acc →
      DedupInv (rec ns acc))
    (hss : CellSorted (s.cell_values.map Prod.fst)) :
    ∀ ds acc, DedupInv acc → DedupInv (tryDominoes cfg cap rec s cell ds acc) := by
  intro ds
  induction ds with
  | nil => intro acc h; exact h
  | cons d rest ih =>
    intro acc h
    simp only [tryDominoes]
    by_cases h1 : d ∈ s.used_dominoes
    · rw [if_pos h1]
      exact ih _ h
    · rw [if_neg h1]
      have hinner := tryAdjs_dedupInv cfg cap rec s cell d hrec hss
        (get_adjacent cfg cell) acc h
      by_cases hstop : stopAt cap
          (tryAdjs cfg cap rec s cell d (get_adjacent cfg cell) acc) = true
      · rw [if_pos hstop]
        exact hinner
      · rw [if_neg hstop]
        exact ih _ hinner

theorem backtrack_dedupInv (cfg : Config) (cap : Option Nat) :
    ∀ fuel s acc, CellSorted (s.cell_values.map Prod.fst) → DedupInv acc →
      DedupInv (backtrack cfg cap fuel s acc) := by
  intro fuel
  induction fuel with
  | zero => intro s acc _ h; exact h
  | succ fuel ih =>
    intro s acc hss h
    simp only [backtrack]
    by_cases h1 : stopAt cap acc = true
    · rw [if_pos h1]
      exact h
    · rw [if_neg h1]
      by_cases h2 : s.filled_cells.length = (allCells cfg).length
      · rw [if_pos h2]
        by_cases h3 : completeCheck cfg s = true
        · rw [if_pos h3]
          exact acceptState_dedupInv s acc hss h
        · rw [if_neg h3]
          exact h
      · rw [if_neg h2]
        by_cases h4 : (choose_cell cfg s).1 < 0
        · rw [if_pos h4]
          exact h
        · rw [if_neg h4]
          exact tryDominoes_dedupInv cfg cap (backtrack cfg cap fuel) s (choose_cell cfg s)
            (fun ns acc hns hacc => ih ns acc hns hacc) hss cfg.dominoes acc h

/-- Claim C4: two search branches whose completed assignments produce the
identical final cell-to-value map are counted as one solution, not two: a
completed assignment is accepted only if its value map is not already in
the seen-signatures set, so the recorded solutions have pairwise distinct
signature lists, pairwise different value maps as lookup functions (the
sorted representation is canonical), and every recorded signature is in
the seen set. -/
theorem solve_dedup_spec (cfg : Config) (cap : Option Nat) :
    ((solveAcc cfg cap).solutions.map (fun s => s.cell_values)).Nodup ∧
    (solveAcc cfg cap).solutions.Pairwise
      (fun s1 s2 => ¬ ∀ c : Cell, mapFind s1.cell_values c = mapFind s2.cell_values c) ∧
    (∀ s ∈ (solveAcc cfg cap).solutions, s.cell_values ∈ (solveAcc cfg cap).seen) := by
  have hinv := backtrack_dedupInv cfg cap ((allCells cfg).length + 1) emptyState emptyAcc
    (by simp [emptyState]) dedupInv_empty
  obtain ⟨h1, h2, h3⟩ := hinv
  refine ⟨h1, ?_, h2⟩
  have hpw : (solveAcc cfg cap).solutions.Pairwise
      (fun s1 s2 => s1.cell_values ≠ s2.cell_values) := by
    have hn := h1
    rw [List.Nodup, List.pairwise_map] at hn
    exact hn
  refine hpw.imp_of_mem ?_
  intro s1 s2 hm1 hm2 hne hall
  exact hne (sorted_map_ext (h3 s1 hm1) (h3 s2 hm2) hall)

end PuzzleGen
